import Mathlib

/-!
Shallow embedding of the Minesweeper AI core (minesweeper.py) and proofs
about it.

Modelling conventions:
* a board cell is a pair of integers `(row, col)`;
* Python `set` objects holding cells become `Finset Cell`; where the code
  iterates over such a set, the embedding iterates in the lexicographic
  order of the cells (Python's set-iteration order is unspecified);
* `Sentence` objects are mutable and aliased in the source, so the engine
  state keeps a `store : List Sentence` of every sentence object ever
  created (indexed by allocation order) and `knowledge : List Nat`, the
  list of store indices currently held in `self.knowledge`; in-place
  mutation of a sentence becomes `List.set` on the store;
* Python `for` loops over `self.knowledge` that remove elements while
  iterating are embedded positionally: the loop keeps an index `i`,
  yields the element at position `i` of the current list, and `remove`
  erases the first value-equal element, exactly as CPython does;
* loops whose iteration count is not structurally obvious take a fuel
  argument and return `none` on exhaustion; every call site passes
  `knowledge.length + 1`, which is proved sufficient
  (`add_knowledge_total`).
-/

/-- Cells of the board are integer pairs `(row, col)`, as in the source. -/
abbrev Cell : Type := ℤ × ℤ

/-- Lexicographic order on cells, used to fix an iteration order for the
Python sets of cells. -/
def cellLe (a b : Cell) : Prop :=
  a.1 < b.1 ∨ (a.1 = b.1 ∧ a.2 ≤ b.2)

instance : DecidableRel cellLe :=
  fun a b => inferInstanceAs (Decidable (a.1 < b.1 ∨ (a.1 = b.1 ∧ a.2 ≤ b.2)))

instance : IsTrans Cell cellLe := by
  constructor
  intro a b c hab hbc
  unfold cellLe at *
  omega

instance : IsAntisymm Cell cellLe := by
  constructor
  intro a b hab hba
  obtain ⟨a1, a2⟩ := a
  obtain ⟨b1, b2⟩ := b
  unfold cellLe at *
  simp only [Prod.mk.injEq]
  omega

instance : IsTotal Cell cellLe := by
  constructor
  intro a b
  unfold cellLe
  omega

/-- Sort the underlying list of a multiset of cells by insertion sort
(structural recursion, so concrete runs reduce inside the kernel). -/
def msortCells (m : Multiset Cell) : List Cell :=
  Quot.liftOn m (fun l => l.insertionSort cellLe)
    (fun l1 l2 h =>
      List.eq_of_perm_of_sorted
        (((l1.perm_insertionSort cellLe).trans h).trans
          (l2.perm_insertionSort cellLe).symm)
        (l1.sorted_insertionSort cellLe) (l2.sorted_insertionSort cellLe))

/-- Iteration order chosen for a Python set of cells. -/
def toCellList (s : Finset Cell) : List Cell :=
  msortCells s.val

theorem mem_toCellList {s : Finset Cell} {c : Cell} : c ∈ toCellList s ↔ c ∈ s := by
  obtain ⟨m, nd⟩ := s
  induction m using Quotient.inductionOn with
  | h l =>
    show c ∈ l.insertionSort cellLe ↔ _
    rw [(l.perm_insertionSort cellLe).mem_iff]
    exact Iff.rfl

theorem toCellList_nodup (s : Finset Cell) : (toCellList s).Nodup := by
  obtain ⟨m, nd⟩ := s
  induction m using Quotient.inductionOn with
  | h l =>
    exact ((l.perm_insertionSort cellLe).nodup_iff).mpr nd

/-- Embedding of the `Sentence` class: a set of cells and a count.
Python's `__eq__` compares both fields, which is definitional equality
here. The count is an integer (Python ints may go negative under
`count -= 1`). -/
structure Sentence where
  cells : Finset Cell
  count : ℤ
deriving DecidableEq

instance : Inhabited Sentence := ⟨⟨∅, 0⟩⟩

/-- Embedding of `Sentence.known_mines`: returns `cells` when
`count == len(cells)`, else the empty set. -/
def Sentence.known_mines (S : Sentence) : Finset Cell :=
  if S.count = (S.cells.card : ℤ) then S.cells else ∅

/-- Embedding of `Sentence.known_safes`: returns `cells` when
`count == 0`, else the empty set. -/
def Sentence.known_safes (S : Sentence) : Finset Cell :=
  if S.count = 0 then S.cells else ∅

/-- Embedding of `Sentence.mark_mine`: if the cell is present, remove it
and decrement the count; otherwise leave the sentence unchanged. -/
def Sentence.mark_mine (S : Sentence) (cell : Cell) : Sentence :=
  if cell ∈ S.cells then ⟨S.cells.erase cell, S.count - 1⟩ else S

/-- Embedding of `Sentence.mark_safe`: if the cell is present, remove it;
the count is unchanged. -/
def Sentence.mark_safe (S : Sentence) (cell : Cell) : Sentence :=
  if cell ∈ S.cells then ⟨S.cells.erase cell, S.count⟩ else S

/-- C5: `known_mines` returns `cells` exactly when `count == len(cells)`
and `count > 0`, and the empty set otherwise (the source omits the
`count > 0` test, but when `count == len(cells)` and `count` is not
positive the cell set is empty, so returning it equals returning the
empty set); `known_safes` returns `cells` exactly when `count == 0` and
the empty set otherwise. -/
theorem known_mines_known_safes_spec (S : Sentence) :
    S.known_mines = (if S.count = (S.cells.card : ℤ) ∧ 0 < S.count then S.cells else ∅) ∧
      S.known_safes = (if S.count = 0 then S.cells else ∅) := by
  constructor
  · unfold Sentence.known_mines
    by_cases h1 : S.count = (S.cells.card : ℤ)
    · by_cases h2 : 0 < S.count
      · rw [if_pos h1, if_pos ⟨h1, h2⟩]
      · have hc : S.cells.card = 0 := by omega
        have he : S.cells = ∅ := Finset.card_eq_zero.mp hc
        rw [if_pos h1, if_neg (by tauto), he]
    · rw [if_neg h1, if_neg (by tauto)]
  · rfl

/-- C6: after `mark_safe` the cell is gone and the count is unchanged;
after `mark_mine` the cell is gone and the count drops by one exactly
when the cell was present; both are no-ops on an absent cell. -/
theorem sentence_mark_spec (S : Sentence) (c : Cell) :
    c ∉ (S.mark_safe c).cells ∧
      (S.mark_safe c).count = S.count ∧
      c ∉ (S.mark_mine c).cells ∧
      (c ∈ S.cells → (S.mark_mine c).count = S.count - 1) ∧
      (c ∉ S.cells → (S.mark_mine c).count = S.count) ∧
      (c ∉ S.cells → S.mark_safe c = S ∧ S.mark_mine c = S) := by
  by_cases h : c ∈ S.cells <;>
    simp [Sentence.mark_safe, Sentence.mark_mine, h, Finset.not_mem_erase]

/-- Witness for `sentence_mark_spec` at a concrete sentence and cell. -/
theorem sentence_mark_spec_witness :
    Sentence.mark_safe ⟨∅, 0⟩ ((0 : ℤ), (0 : ℤ)) = ⟨∅, 0⟩ ∧
      Sentence.mark_mine ⟨∅, 0⟩ ((0 : ℤ), (0 : ℤ)) = ⟨∅, 0⟩ :=
  (sentence_mark_spec ⟨∅, 0⟩ ((0 : ℤ), (0 : ℤ))).2.2.2.2.2 (by decide)

/-- Embedding of the `MinesweeperAI` state. `store` holds every
`Sentence` object ever created (by allocation order) and `knowledge`
the store indices of the objects currently in `self.knowledge`, so that
the source's aliased in-place mutation of sentences is represented
exactly. -/
structure AIState where
  height : ℤ
  width : ℤ
  moves_made : Finset Cell
  mines : Finset Cell
  safes : Finset Cell
  store : List Sentence
  knowledge : List ℕ
deriving DecidableEq

instance : Inhabited AIState := ⟨⟨8, 8, ∅, ∅, ∅, [], []⟩⟩

/-- Embedding of `MinesweeperAI.__init__`. -/
def initAI (height width : ℤ) : AIState :=
  ⟨height, width, ∅, ∅, ∅, [], []⟩

/-- Current values of the sentences in `self.knowledge`, in list order. -/
def liveSentences (s : AIState) : List Sentence :=
  s.knowledge.map (fun id => s.store.getD id default)

/-- Python's `for sentence in self.knowledge: sentence.mark(cell); if
empty: self.knowledge.remove(sentence)` loop, positionally: yield the
element at index `i` of the current list, mutate it in the store, and
if its cell set became empty erase the first value-equal list element
(which shifts later elements left, so the element after the erased one
is skipped, exactly as in CPython). `fuel` bounds the iteration count
and `knowledge.length + 1` is always enough (`markLoopF_total`). -/
def markLoopF (f : Sentence → Sentence) :
    ℕ → List Sentence → List ℕ → ℕ → Option (List Sentence × List ℕ)
  | fuel + 1, store, kn, i =>
    if i < kn.length then
      let id := kn.getD i 0
      let sv2 := f (store.getD id default)
      let store2 := store.set id sv2
      let kn2 :=
        if sv2.cells = ∅ then
          kn.eraseP (fun j => decide (store2.getD j default = sv2))
        else kn
      markLoopF f fuel store2 kn2 (i + 1)
    else some (store, kn)
  | 0, store, kn, i =>
    if i < kn.length then none else some (store, kn)

/-- Run a mark loop over the whole knowledge list of a state. -/
def runMarkLoop (f : Sentence → Sentence) (s : AIState) : Option AIState :=
  (markLoopF f (s.knowledge.length + 1) s.store s.knowledge 0).map
    (fun p => { s with store := p.1, knowledge := p.2 })

/-- Embedding of `MinesweeperAI.mark_mine`: add the cell to `mines`,
then run the marking loop over `knowledge`. -/
def AIState.mark_mine (s : AIState) (cell : Cell) : Option AIState :=
  runMarkLoop (fun snt => snt.mark_mine cell)
    { s with mines := insert cell s.mines }

/-- Embedding of `MinesweeperAI.mark_safe`: add the cell to `safes`,
then run the marking loop over `knowledge`. -/
def AIState.mark_safe (s : AIState) (cell : Cell) : Option AIState :=
  runMarkLoop (fun snt => snt.mark_safe cell)
    { s with safes := insert cell s.safes }

/-- Embedding of `MinesweeperAI.mark_cells`: if `count == 0` union the
cells into `safes` and call `mark_safe` on each; if `count ==
len(cells)` union them into `mines` and call `mark_mine` on each;
otherwise do nothing. The Python set is iterated in `toCellList`
order. -/
def mark_cells (s : AIState) (cells : Finset Cell) (count : ℤ) : Option AIState :=
  if count = 0 then
    (toCellList cells).foldlM (fun st c => st.mark_safe c)
      { s with safes := s.safes ∪ cells }
  else if count = (cells.card : ℤ) then
    (toCellList cells).foldlM (fun st c => st.mark_mine c)
      { s with mines := s.mines ∪ cells }
  else some s

/-- Embedding of `MinesweeperAI.neighbours`: the in-bounds cells within
one row and one column of `cell`, excluding `cell` itself. -/
def neighbours (height width : ℤ) (cell : Cell) : Finset Cell :=
  ((Finset.Icc (cell.1 - 1) (cell.1 + 1)).product
      (Finset.Icc (cell.2 - 1) (cell.2 + 1))).filter
    (fun p => p ≠ cell ∧ 0 ≤ p.1 ∧ p.1 < height ∧ 0 ≤ p.2 ∧ p.2 < width)

/-- Lines 215-218 of the source: one pass over `knowledge` unioning each
sentence's `known_safes()` into `safes` and `known_mines()` into
`mines` (without purging those cells from any sentence). -/
def directPass (s : AIState) : AIState :=
  s.knowledge.foldl
    (fun st id =>
      let sv := st.store.getD id default
      { st with safes := st.safes ∪ sv.known_safes,
                mines := st.mines ∪ sv.known_mines })
    s

/-- Value-equality membership of a sentence in `self.knowledge`. -/
def liveContains (s : AIState) (v : Sentence) : Prop :=
  ∃ id ∈ s.knowledge, s.store.getD id default = v

instance (s : AIState) (v : Sentence) : Decidable (liveContains s v) :=
  inferInstanceAs (Decidable (∃ id ∈ s.knowledge, s.store.getD id default = v))

/-- Allocate a fresh sentence object and append it to `knowledge`. -/
def appendSentence (s : AIState) (v : Sentence) : AIState :=
  { s with store := s.store ++ [v], knowledge := s.knowledge ++ [s.store.length] }

/-- Inner loop of the subset-inference pass (lines 232-241): for each
position `j` of the current knowledge list, if the sentence `subId`
currently denotes is a strict-value subset sentence of the one at `j`,
derive the difference sentence, run `mark_cells` on it, and stage it in
`acc` (the source's `new_knowledge`) unless already staged. -/
def subsetInnerF : ℕ → AIState → ℕ → ℕ → List Sentence → Option (AIState × List Sentence)
  | fuel + 1, s, subId, j, acc =>
    if j < s.knowledge.length then
      let superId := s.knowledge.getD j 0
      let sub := s.store.getD subId default
      let sup := s.store.getD superId default
      if sub ≠ sup ∧ sub.cells ⊆ sup.cells then
        let new_cells := sup.cells \ sub.cells
        let new_count := sup.count - sub.count
        if 0 < new_cells.card ∧ 0 ≤ new_count then
          match mark_cells s new_cells new_count with
          | none => none
          | some s2 =>
            let upd : Sentence := ⟨new_cells, new_count⟩
            let acc2 := if upd ∉ acc ∧ upd.cells ≠ ∅ then acc ++ [upd] else acc
            subsetInnerF fuel s2 subId (j + 1) acc2
        else subsetInnerF fuel s subId (j + 1) acc
      else subsetInnerF fuel s subId (j + 1) acc
    else some (s, acc)
  | 0, s, _, j, acc =>
    if j < s.knowledge.length then none else some (s, acc)

/-- Outer loop of the subset-inference pass (line 231): iterate the
positions of the (mutating) knowledge list, running the inner loop for
the sentence at each position. -/
def subsetOuterF : ℕ → AIState → ℕ → List Sentence → Option (AIState × List Sentence)
  | fuel + 1, s, i, acc =>
    if i < s.knowledge.length then
      let subId := s.knowledge.getD i 0
      match subsetInnerF (s.knowledge.length + 1) s subId 0 acc with
      | none => none
      | some (s2, acc2) => subsetOuterF fuel s2 (i + 1) acc2
    else some (s, acc)
  | 0, s, i, acc =>
    if i < s.knowledge.length then none else some (s, acc)

/-- Final loop of `add_knowledge` (lines 242-244): append each staged
sentence not already in `knowledge` and with a non-empty cell set. -/
def addNew (s : AIState) : List Sentence → AIState
  | [] => s
  | snt :: rest =>
    if ¬liveContains s snt ∧ snt.cells ≠ ∅ then addNew (appendSentence s snt) rest
    else addNew s rest

/-- Body of `MinesweeperAI.add_knowledge` after the initial
`mark_safe(cell)` (lines 204-244): compute the undetermined
neighbourhood and adjusted count, run the single direct pass (lines
215-218), run `mark_cells` on the new sentence's cells, append the new
sentence if not already present, then run the subset pass and append
the staged sentences. -/
def addKnowledgeRest (cell : Cell) (count : ℤ) (s2 : AIState) : Option AIState :=
  let nb := neighbours s2.height s2.width cell
  let km := nb ∩ s2.mines
  let ks := nb ∩ s2.safes
  let count1 := count - (km.card : ℤ)
  let nb1 := nb \ (km ∪ ks)
  let s3 := if 0 < s2.knowledge.length then directPass s2 else s2
  (mark_cells s3 nb1 count1).bind
    (fun s4 =>
      let nb2 := (nb1 \ s4.mines) \ s4.safes
      let newS : Sentence := ⟨nb2, count1⟩
      let s5 := if liveContains s4 newS then s4 else appendSentence s4 newS
      (subsetOuterF (s5.knowledge.length + 1) s5 0 []).bind
        (fun p => some (addNew p.1 p.2)))

/-- Embedding of `MinesweeperAI.add_knowledge`: record the move, mark
the revealed cell safe, then run the rest of the body
(`addKnowledgeRest`). -/
def add_knowledge (s : AIState) (cell : Cell) (count : ℤ) : Option AIState :=
  (AIState.mark_safe { s with moves_made := insert cell s.moves_made } cell).bind
    (addKnowledgeRest cell count)

/-- Embedding of `MinesweeperAI.make_safe_move`: scan `safes` (in the
chosen set-iteration order) for the first cell not in `moves_made`. -/
def make_safe_move (s : AIState) : Option Cell :=
  (toCellList s.safes).find? (fun c => decide (c ∉ s.moves_made))

/-- The method `make_safe_move` performs no writes to `self`; its
state-passing form therefore returns the state unchanged together with
the scan result. -/
def make_safe_move_run (s : AIState) : AIState × Option Cell :=
  (s, make_safe_move s)

/-- Embedding of the candidate list built by
`MinesweeperAI.make_random_move`: for each sentence of `knowledge` in
order, the cells of that sentence that are neither in `moves_made` nor
in `mines` (so a cell appears once per sentence containing it). -/
def available_moves (s : AIState) : List Cell :=
  s.knowledge.flatMap
    (fun id =>
      (toCellList (s.store.getD id default).cells).filter
        (fun c => decide (c ∉ s.moves_made ∧ c ∉ s.mines)))

/-- Embedding of `MinesweeperAI.make_random_move`: `random.choice` on
the candidate list, modelled by an arbitrary index `k` reduced modulo
the list length; on an empty list the `IndexError` branch returns
`None`. -/
def make_random_move (s : AIState) (k : ℕ) : Option Cell :=
  let l := available_moves s
  if h : l = [] then none
  else some (l.get ⟨k % l.length, Nat.mod_lt k (List.length_pos.mpr h)⟩)

/-- The method `make_random_move` writes only the local candidate list,
never `self`; its state-passing form returns the state unchanged. -/
def make_random_move_run (s : AIState) (k : ℕ) : AIState × Option Cell :=
  let l := available_moves s
  if h : l = [] then (s, none)
  else (s, some (l.get ⟨k % l.length, Nat.mod_lt k (List.length_pos.mpr h)⟩))

/-- Engine state after the single truthful call `add_knowledge((0,0), 1)`
on a fresh 1-by-2 engine (board scenario: the only mine at `(0,1)`). -/
def demoB1 : AIState :=
  (add_knowledge (initAI 1 2) ((0 : ℤ), (0 : ℤ)) 1).getD default

/-- Engine state after the truthful call `add_knowledge((0,1), 1)` on a
fresh 1-by-3 engine (board scenario: the only mine at `(0,0)`). -/
def demoA1 : AIState :=
  (add_knowledge (initAI 1 3) ((0 : ℤ), (1 : ℤ)) 1).getD default

/-- Engine state after the further truthful call `add_knowledge((0,2), 0)`
on `demoA1` (cell `(0,2)` has the single neighbour `(0,1)`, which is not
a mine). -/
def demoA2 : AIState :=
  (add_knowledge demoA1 ((0 : ℤ), (2 : ℤ)) 0).getD default

/-- C4: on a 1-by-2 engine, after `add_knowledge((0,0), 1)` the mines
set is exactly `{(0,1)}`, and `(0,0)` is recorded in `moves_made` and
in `safes`. -/
theorem one_by_two_board_scenario :
    add_knowledge (initAI 1 2) ((0 : ℤ), (0 : ℤ)) 1 = some demoB1 ∧
      demoB1.mines = {((0 : ℤ), (1 : ℤ))} ∧
      ((0 : ℤ), (0 : ℤ)) ∈ demoB1.moves_made ∧
      ((0 : ℤ), (0 : ℤ)) ∈ demoB1.safes := by
  decide

/-- C3 fails on the code: the very same truthful call leaves the
sentence `(∅, 1)` in `knowledge` — an empty cell set whose count `1`
exceeds its cardinality `0` (the code subtracts the already-determined
cells from the new sentence but appends it even when nothing is
left). -/
theorem empty_sentence_with_positive_count :
    add_knowledge (initAI 1 2) ((0 : ℤ), (0 : ℤ)) 1 = some demoB1 ∧
      ∃ id ∈ demoB1.knowledge,
        (demoB1.store.getD id default).cells = ∅ ∧
          (demoB1.store.getD id default).count = 1 ∧
          ¬(demoB1.store.getD id default).count ≤
              ((demoB1.store.getD id default).cells.card : ℤ) := by
  decide

/-- C2 fails on the code: after the two truthful calls of the 1-by-3
scenario, `(0,0)` is in `mines` yet still appears in the cell set of a
live sentence (the direct pass of lines 215-218 unions `known_mines()`
into `mines` without purging the cell from any sentence, and the
subset pass then re-appends the sentence `({(0,0)}, 1)`). -/
theorem mine_cell_left_in_knowledge :
    add_knowledge (initAI 1 3) ((0 : ℤ), (1 : ℤ)) 1 = some demoA1 ∧
      add_knowledge demoA1 ((0 : ℤ), (2 : ℤ)) 0 = some demoA2 ∧
      ((0 : ℤ), (0 : ℤ)) ∈ demoA2.mines ∧
      ∃ id ∈ demoA2.knowledge,
        ((0 : ℤ), (0 : ℤ)) ∈ (demoA2.store.getD id default).cells := by
  decide

/-- C1 fails on the code: in the state returned by the second call of
the 1-by-3 scenario, a live sentence still contains a cell of `mines`,
so re-running the claim's direct inference pass (marking every known
mine in all sentences) would change that sentence — `add_knowledge`
returned without reaching the claimed fixed point. -/
theorem add_knowledge_not_saturated :
    add_knowledge (initAI 1 3) ((0 : ℤ), (1 : ℤ)) 1 = some demoA1 ∧
      add_knowledge demoA1 ((0 : ℤ), (2 : ℤ)) 0 = some demoA2 ∧
      ∃ id ∈ demoA2.knowledge,
        ((0 : ℤ), (0 : ℤ)) ∈ demoA2.mines ∧
          (demoA2.store.getD id default).mark_mine ((0 : ℤ), (0 : ℤ)) ≠
            demoA2.store.getD id default := by
  decide

/-- Fuel `knowledge.length + 1 - i` always suffices for a mark loop:
each iteration advances the index and never lengthens the list, so the
loop returns, with a knowledge list no longer than before. -/
theorem markLoopF_total (f : Sentence → Sentence) :
    ∀ (fuel : ℕ) (store : List Sentence) (kn : List ℕ) (i : ℕ),
      kn.length < fuel + i →
      ∃ st2 kn2, markLoopF f fuel store kn i = some (st2, kn2) ∧
        kn2.length ≤ kn.length := by
  intro fuel
  induction fuel with
  | zero =>
    intro store kn i h
    refine ⟨store, kn, ?_, le_refl _⟩
    simp only [markLoopF]
    rw [if_neg (by omega)]
  | succ fuel ih =>
    intro store kn i h
    by_cases hi : i < kn.length
    · simp only [markLoopF, if_pos hi]
      set sv2 := f (store.getD (kn.getD i 0) default) with hsv2
      set store2 := store.set (kn.getD i 0) sv2 with hstore2
      set kn2 :=
        if sv2.cells = ∅ then
          kn.eraseP (fun j => decide (store2.getD j default = sv2))
        else kn with hkn2
      have hlen : kn2.length ≤ kn.length := by
        rw [hkn2]
        split
        · exact List.length_eraseP_le kn
        · exact le_refl _
      obtain ⟨st2, kn3, heq, hle⟩ := ih store2 kn2 (i + 1) (by omega)
      exact ⟨st2, kn3, heq, le_trans hle hlen⟩
    · simp only [markLoopF, if_neg hi]
      exact ⟨store, kn, rfl, le_refl _⟩

/-- A whole-knowledge mark loop always returns, without lengthening the
knowledge list. -/
theorem runMarkLoop_total (f : Sentence → Sentence) (s : AIState) :
    ∃ t, runMarkLoop f s = some t ∧ t.knowledge.length ≤ s.knowledge.length := by
  obtain ⟨st2, kn2, heq, hle⟩ :=
    markLoopF_total f (s.knowledge.length + 1) s.store s.knowledge 0 (by omega)
  refine ⟨{ s with store := st2, knowledge := kn2 }, ?_, hle⟩
  rw [runMarkLoop, heq]
  rfl

/-- The engine's `mark_safe` always returns, without lengthening the
knowledge list. -/
theorem ai_mark_safe_total (s : AIState) (c : Cell) :
    ∃ t, s.mark_safe c = some t ∧ t.knowledge.length ≤ s.knowledge.length :=
  runMarkLoop_total (fun snt => snt.mark_safe c) { s with safes := insert c s.safes }

/-- The engine's `mark_mine` always returns, without lengthening the
knowledge list. -/
theorem ai_mark_mine_total (s : AIState) (c : Cell) :
    ∃ t, s.mark_mine c = some t ∧ t.knowledge.length ≤ s.knowledge.length :=
  runMarkLoop_total (fun snt => snt.mark_mine c) { s with mines := insert c s.mines }

/-- Folding a knowledge-length-non-increasing stepper over a cell list
always returns, without lengthening the knowledge list. -/
theorem foldlM_mark_total (step : AIState → Cell → Option AIState)
    (hstep : ∀ s c, ∃ t, step s c = some t ∧ t.knowledge.length ≤ s.knowledge.length) :
    ∀ (l : List Cell) (s : AIState),
      ∃ t, l.foldlM step s = some t ∧ t.knowledge.length ≤ s.knowledge.length := by
  intro l
  induction l with
  | nil => intro s; exact ⟨s, rfl, le_refl _⟩
  | cons c rest ih =>
    intro s
    obtain ⟨t1, h1, hl1⟩ := hstep s c
    obtain ⟨t2, h2, hl2⟩ := ih t1
    refine ⟨t2, ?_, le_trans hl2 hl1⟩
    rw [List.foldlM_cons, h1]
    exact h2

/-- The engine's `mark_cells` always returns, without lengthening the
knowledge list. -/
theorem mark_cells_total (s : AIState) (cells : Finset Cell) (count : ℤ) :
    ∃ t, mark_cells s cells count = some t ∧
      t.knowledge.length ≤ s.knowledge.length := by
  unfold mark_cells
  split_ifs with h1 h2
  · exact foldlM_mark_total _ ai_mark_safe_total (toCellList cells) _
  · exact foldlM_mark_total _ ai_mark_mine_total (toCellList cells) _
  · exact ⟨s, rfl, le_refl _⟩

/-- Fuel `knowledge.length + 1 - j` always suffices for the inner
subset-pass loop. -/
theorem subsetInnerF_total :
    ∀ (fuel : ℕ) (s : AIState) (subId j : ℕ) (acc : List Sentence),
      s.knowledge.length < fuel + j →
      ∃ t acc2, subsetInnerF fuel s subId j acc = some (t, acc2) ∧
        t.knowledge.length ≤ s.knowledge.length := by
  intro fuel
  induction fuel with
  | zero =>
    intro s subId j acc h
    refine ⟨s, acc, ?_, le_refl _⟩
    simp only [subsetInnerF]
    rw [if_neg (by omega)]
  | succ fuel ih =>
    intro s subId j acc h
    by_cases hj : j < s.knowledge.length
    · simp only [subsetInnerF, if_pos hj]
      by_cases hpair :
          s.store.getD subId default ≠ s.store.getD (s.knowledge.getD j 0) default ∧
            (s.store.getD subId default).cells ⊆
              (s.store.getD (s.knowledge.getD j 0) default).cells
      · rw [if_pos hpair]
        by_cases hguard :
            0 < ((s.store.getD (s.knowledge.getD j 0) default).cells \
                (s.store.getD subId default).cells).card ∧
              0 ≤ (s.store.getD (s.knowledge.getD j 0) default).count -
                (s.store.getD subId default).count
        · rw [if_pos hguard]
          obtain ⟨s2, hmc, hlen2⟩ :=
            mark_cells_total s
              ((s.store.getD (s.knowledge.getD j 0) default).cells \
                (s.store.getD subId default).cells)
              ((s.store.getD (s.knowledge.getD j 0) default).count -
                (s.store.getD subId default).count)
          rw [hmc]
          obtain ⟨t, acc2, heq, hle⟩ := ih s2 subId (j + 1) _ (by omega)
          exact ⟨t, acc2, heq, le_trans hle hlen2⟩
        · rw [if_neg hguard]
          obtain ⟨t, acc2, heq, hle⟩ := ih s subId (j + 1) acc (by omega)
          exact ⟨t, acc2, heq, hle⟩
      · rw [if_neg hpair]
        obtain ⟨t, acc2, heq, hle⟩ := ih s subId (j + 1) acc (by omega)
        exact ⟨t, acc2, heq, hle⟩
    · simp only [subsetInnerF, if_neg hj]
      exact ⟨s, acc, rfl, le_refl _⟩

/-- Fuel `knowledge.length + 1 - i` always suffices for the outer
subset-pass loop. -/
theorem subsetOuterF_total :
    ∀ (fuel : ℕ) (s : AIState) (i : ℕ) (acc : List Sentence),
      s.knowledge.length < fuel + i →
      ∃ t acc2, subsetOuterF fuel s i acc = some (t, acc2) ∧
        t.knowledge.length ≤ s.knowledge.length := by
  intro fuel
  induction fuel with
  | zero =>
    intro s i acc h
    refine ⟨s, acc, ?_, le_refl _⟩
    simp only [subsetOuterF]
    rw [if_neg (by omega)]
  | succ fuel ih =>
    intro s i acc h
    by_cases hi : i < s.knowledge.length
    · simp only [subsetOuterF, if_pos hi]
      obtain ⟨s2, acc2, hin, hlen2⟩ :=
        subsetInnerF_total (s.knowledge.length + 1) s (s.knowledge.getD i 0) 0 acc
          (by omega)
      rw [hin]
      obtain ⟨t, acc3, heq, hle⟩ := ih s2 (i + 1) acc2 (by omega)
      exact ⟨t, acc3, heq, le_trans hle hlen2⟩
    · simp only [subsetOuterF, if_neg hi]
      exact ⟨s, acc, rfl, le_refl _⟩

/-- Helper for C9: the body of `add_knowledge` after `mark_safe` always
returns a state. -/
theorem addKnowledgeRest_total (cell : Cell) (count : ℤ) (s2 : AIState) :
    ∃ t, addKnowledgeRest cell count s2 = some t := by
  simp only [addKnowledgeRest]
  obtain ⟨s4, hmc, _⟩ :=
    mark_cells_total
      (if 0 < s2.knowledge.length then directPass s2 else s2)
      ((neighbours s2.height s2.width cell) \
        ((neighbours s2.height s2.width cell ∩ s2.mines) ∪
          (neighbours s2.height s2.width cell ∩ s2.safes)))
      (count - ((neighbours s2.height s2.width cell ∩ s2.mines).card : ℤ))
  rw [hmc]
  simp only [Option.some_bind]
  set newS : Sentence :=
    ⟨((neighbours s2.height s2.width cell \
        ((neighbours s2.height s2.width cell ∩ s2.mines) ∪
          (neighbours s2.height s2.width cell ∩ s2.safes))) \ s4.mines) \ s4.safes,
      count - ((neighbours s2.height s2.width cell ∩ s2.mines).card : ℤ)⟩ with hnewS
  set s5 := if liveContains s4 newS then s4 else appendSentence s4 newS with hs5
  obtain ⟨s6, acc, hso, _⟩ :=
    subsetOuterF_total (s5.knowledge.length + 1) s5 0 [] (by omega)
  rw [hso]
  exact ⟨_, rfl⟩

/-- C9: `add_knowledge` terminates on every engine state: every loop of
the embedding completes within its supplied fuel, so the function
always returns a state (never the fuel-exhaustion marker `none`). -/
theorem add_knowledge_total (s : AIState) (cell : Cell) (count : ℤ) :
    ∃ t, add_knowledge s cell count = some t := by
  simp only [add_knowledge]
  obtain ⟨s2, hms, _⟩ :=
    ai_mark_safe_total { s with moves_made := insert cell s.moves_made } cell
  rw [hms]
  simp only [Option.some_bind]
  exact addKnowledgeRest_total cell count s2

/-- C8: `make_safe_move` returns a cell of `safes` outside `moves_made`
whenever one exists and `None` otherwise, and — being a pure read of
the state — mutates nothing, so two consecutive calls agree. -/
theorem make_safe_move_spec (s : AIState) :
    (∀ c, make_safe_move s = some c → c ∈ s.safes ∧ c ∉ s.moves_made) ∧
      ((∃ c ∈ s.safes, c ∉ s.moves_made) → ∃ c, make_safe_move s = some c) ∧
      ((∀ c ∈ s.safes, c ∈ s.moves_made) → make_safe_move s = none) ∧
      (make_safe_move_run s).1 = s ∧
      (make_safe_move_run ((make_safe_move_run s).1)).2 = (make_safe_move_run s).2 := by
  have hkey : ∀ c, make_safe_move s = some c → c ∈ s.safes ∧ c ∉ s.moves_made := by
    intro c h
    have hp := List.find?_some h
    have hm := List.mem_of_find?_eq_some h
    simp only [decide_eq_true_eq] at hp
    exact ⟨mem_toCellList.mp hm, hp⟩
  refine ⟨hkey, ?_, ?_, rfl, rfl⟩
  · rintro ⟨c, hc, hcm⟩
    cases h : make_safe_move s with
    | none =>
      exfalso
      have := List.find?_eq_none.mp h c (mem_toCellList.mpr hc)
      simp only [decide_eq_true_eq] at this
      exact this hcm
    | some c2 => exact ⟨c2, rfl⟩
  · intro hall
    cases h : make_safe_move s with
    | none => rfl
    | some c =>
      obtain ⟨hc, hcm⟩ := hkey c h
      exact absurd (hall c hc) hcm

/-- Engine state with one known safe, untried cell, used to witness
`make_safe_move_spec`. -/
def exSafe : AIState :=
  ⟨1, 1, ∅, ∅, {((0 : ℤ), (0 : ℤ))}, [], []⟩

/-- Witness for `make_safe_move_spec`: on `exSafe` an untried safe cell
exists, and the scan finds one. -/
theorem make_safe_move_spec_witness :
    ∃ c, make_safe_move exSafe = some c :=
  (make_safe_move_spec exSafe).2.1 ⟨((0 : ℤ), (0 : ℤ)), by decide, by decide⟩

/-- C10: `make_random_move` builds only a local candidate list; its
state-passing form returns the engine state unchanged — `moves_made`,
`mines`, `safes`, `store` and `knowledge` are all as before. -/
theorem make_random_move_frame (s : AIState) (k : ℕ) :
    (make_random_move_run s k).1 = s ∧
      (make_random_move_run s k).2 = make_random_move s k := by
  by_cases h : available_moves s = []
  · simp [make_random_move_run, make_random_move, h]
  · simp [make_random_move_run, make_random_move, h]

/-- Number of occurrences of a cell in a list of cells. -/
def occCount (c : Cell) (l : List Cell) : ℕ :=
  l.countP (fun x => decide (x = c))

/-- Claim C7 reads the choice as uniform over candidate cells. With the
index `k` uniform, `random.choice` returns each list position with
equal probability, so each cell is returned with probability
`occCount / length`; per-cell uniformity therefore says every two
candidate cells occur equally often in the candidate list. -/
def choosesUniformly (s : AIState) : Prop :=
  ∀ c1 ∈ available_moves s, ∀ c2 ∈ available_moves s,
    occCount c1 (available_moves s) = occCount c2 (available_moves s)

instance (s : AIState) : Decidable (choosesUniformly s) :=
  inferInstanceAs
    (Decidable (∀ c1 ∈ available_moves s, ∀ c2 ∈ available_moves s,
      occCount c1 (available_moves s) = occCount c2 (available_moves s)))

/-- Engine state whose knowledge holds the two overlapping sentences
`{(0,0),(0,1)} = 1` and `{(0,0),(1,1)} = 1`. -/
def exOverlap : AIState :=
  ⟨8, 8, ∅, ∅, ∅,
    [⟨{((0 : ℤ), (0 : ℤ)), ((0 : ℤ), (1 : ℤ))}, 1⟩,
      ⟨{((0 : ℤ), (0 : ℤ)), ((1 : ℤ), (1 : ℤ))}, 1⟩],
    [0, 1]⟩

/-- C7 fails as stated: on `exOverlap` the candidate list is non-empty
but `(0,0)`, which appears in two sentences, occurs twice while
`(0,1)` occurs once, so `random.choice` picks `(0,0)` with probability
`1/2` and `(0,1)` with probability `1/4` — not each candidate cell
with equal probability. -/
theorem make_random_move_not_uniform :
    available_moves exOverlap ≠ [] ∧ ¬choosesUniformly exOverlap := by
  decide

/-- A duplicate-free list holds a cell either once or not at all. -/
theorem occCount_eq_ite {l : List Cell} (hl : l.Nodup) (c : Cell) :
    occCount c l = if c ∈ l then 1 else 0 := by
  induction l with
  | nil => simp [occCount]
  | cons x xs ih =>
    have hx : x ∉ xs := (List.nodup_cons.mp hl).1
    have hxs : xs.Nodup := (List.nodup_cons.mp hl).2
    simp only [occCount, List.countP_cons] at ih ⊢
    rw [ih hxs]
    by_cases hcx : x = c
    · subst hcx
      simp [hx]
    · have hcx2 : ¬c = x := fun h => hcx h.symm
      simp [List.mem_cons, hcx, hcx2]

/-- Count of a cell in a concatenation of duplicate-free blocks: one per
block containing it. -/
theorem occCount_flatMap_nodup (g : ℕ → List Cell) (hg : ∀ id, (g id).Nodup)
    (c : Cell) :
    ∀ ids : List ℕ,
      occCount c (ids.flatMap g) = ids.countP (fun id => decide (c ∈ g id)) := by
  intro ids
  induction ids with
  | nil => rfl
  | cons id rest ih =>
    simp only [occCount] at ih ⊢
    rw [List.flatMap_cons, List.countP_append, ih, List.countP_cons]
    have hone := occCount_eq_ite (hg id) c
    simp only [occCount] at hone
    rw [hone]
    simp only [decide_eq_true_eq]
    split_ifs <;> omega

/-- C7, amended: `make_random_move` returns `None` exactly when the
candidate list is empty (in particular whenever `knowledge` is empty);
otherwise it returns a candidate; the candidates are exactly the cells
appearing in some sentence of `knowledge` that are neither in
`moves_made` nor in `mines`; and each such cell occurs in the
candidate list once per sentence containing it, so the choice is
uniform over sentence-occurrences, not over cells. -/
theorem make_random_move_spec (s : AIState) (k : ℕ) :
    (make_random_move s k = none ↔ available_moves s = []) ∧
      (∀ c, make_random_move s k = some c → c ∈ available_moves s) ∧
      (∀ c, c ∈ available_moves s ↔
        (∃ id ∈ s.knowledge, c ∈ (s.store.getD id default).cells) ∧
          c ∉ s.moves_made ∧ c ∉ s.mines) ∧
      (∀ c, occCount c (available_moves s) =
        s.knowledge.countP
          (fun id =>
            decide (c ∈ (s.store.getD id default).cells ∧
              c ∉ s.moves_made ∧ c ∉ s.mines))) := by
  refine ⟨?_, ?_, ?_, ?_⟩
  · constructor
    · intro h
      by_cases he : available_moves s = []
      · exact he
      · exfalso
        simp only [make_random_move, dif_neg he] at h
        exact Option.noConfusion h
    · intro he
      simp only [make_random_move, dif_pos he]
  · intro c h
    by_cases he : available_moves s = []
    · simp only [make_random_move, dif_pos he] at h
      exact Option.noConfusion h
    · simp only [make_random_move, dif_neg he, Option.some.injEq] at h
      rw [← h]
      exact List.get_mem _ _ _
  · intro c
    unfold available_moves
    rw [List.mem_flatMap]
    constructor
    · rintro ⟨id, hid, hmem⟩
      rw [List.mem_filter] at hmem
      obtain ⟨hcell, hcond⟩ := hmem
      simp only [decide_eq_true_eq] at hcond
      exact ⟨⟨id, hid, mem_toCellList.mp hcell⟩, hcond⟩
    · rintro ⟨⟨id, hid, hcell⟩, hcond⟩
      refine ⟨id, hid, ?_⟩
      rw [List.mem_filter]
      exact ⟨mem_toCellList.mpr hcell, by simpa using hcond⟩
  · intro c
    unfold available_moves
    rw [occCount_flatMap_nodup _ (fun id => (toCellList_nodup _).filter _) c]
    apply List.countP_congr
    intro id _
    simp only [decide_eq_decide, List.mem_filter, decide_eq_true_eq,
      mem_toCellList]

/-- Witness for `make_random_move_spec`: on `exOverlap` with index `0`
the call returns a candidate cell. -/
theorem make_random_move_spec_witness :
    ((0 : ℤ), (0 : ℤ)) ∈ available_moves exOverlap :=
  (make_random_move_spec exOverlap 0).2.1 ((0 : ℤ), (0 : ℤ)) (by decide)
